import Mathlib

/-!
Shallow embedding of `lib_simulation.py`: a single-server library queue
simulation.  Timestamps are modelled as rationals (Python ints and floats),
random draws as explicit tapes: a finite list of natural-number Poisson
inter-arrival gaps and a stream of rational exponential service delays.
The event loop is a fuel-indexed step function; `runDay` supplies fuel
bounding the number of iterations (each iteration strictly decreases
`2·#ARRIVE + #FINISH + #waiting`, so the bound is sufficient).
-/

/-- The two event kinds of the simulation (Python `EventType`, an `Enum`
with no order methods). -/
inductive EventType where
  | ARRIVE
  | FINISH
deriving DecidableEq

/-- An event: Python tuple `(timestamp, EventType)`. -/
abbrev Event := ℚ × EventType

/-- Python `int()` applied to a rational: truncation toward zero. -/
def pyInt (q : ℚ) : ℤ := if 0 ≤ q then ⌊q⌋ else -⌊-q⌋

/-- The configuration object: fields of class `LibSimulation` after
`__init__` unit conversion. -/
structure LibSimulation where
  time : ℤ
  person_delay : ℤ
  service_delay : ℤ
deriving DecidableEq

/-- `LibSimulation.__init__`: hours to seconds, minutes to seconds.  The
constructor performs no validation of its arguments. -/
def LibSimulation.init (time person_mean_delay service_mean_delay : ℚ) : LibSimulation :=
  { time := pyInt (time * 3600)
    person_delay := pyInt (person_mean_delay * 60)
    service_delay := pyInt (service_mean_delay * 60) }

/-- The loop of `_generate_arrives`, run on a finite tape of Poisson gap
draws: `t` is `actual_time`; while `t < T` emit `t` and add the next gap.
`none` means the tape was exhausted while the loop still demanded a draw
(in particular, no finite tape completes the loop). Returns the emitted
arrival times together with the unconsumed tape suffix. -/
def genTimes (T : ℤ) : ℕ → List ℕ → Option (List ℕ × List ℕ)
  | t, [] => if (t : ℤ) < T then none else some ([], [])
  | t, g :: gs =>
      if (t : ℤ) < T then (genTimes T (t + g) gs).map (fun r => (t :: r.1, r.2))
      else some ([], g :: gs)

/-- `_generate_arrives`: the first draw initializes `actual_time`, then the
emission loop runs.  `none` when the tape cannot complete the loop. -/
def generate_arrives (T : ℤ) : List ℕ → Option (List ℕ × List ℕ)
  | [] => none
  | g :: gs => genTimes T g gs

/-- Update of the Python dict `number_waiting_persons_in_time`: add `v` to
bucket `k`, inserting the bucket if absent. -/
def histAdd : List (ℕ × ℚ) → ℕ → ℚ → List (ℕ × ℚ)
  | [], k, v => [(k, v)]
  | (k', v') :: rest, k, v =>
      if k' = k then (k', v' + v) :: rest else (k', v') :: histAdd rest k v

/-- Sum of all recorded durations of the histogram. -/
def histSum (h : List (ℕ × ℚ)) : ℚ := (h.map Prod.snd).sum

/-- `sum_t`: the length-weighted sum `Σ i * time` over the histogram. -/
def histWeighted (h : List (ℕ × ℚ)) : ℚ := (h.map (fun p => (p.1 : ℚ) * p.2)).sum

/-- `np.mean` on a list of rationals: `none` models the NaN produced on an
empty list. -/
def pymean (l : List ℚ) : Option ℚ :=
  if l = [] then none else some (l.sum / (l.length : ℚ))

/-- The mutable state of `simulate_day`'s event loop.  `events` is the
pending-event multiset in insertion order (extraction takes the
leftmost minimal-timestamp element); `waiting` is the FIFO of arrival
timestamps (head = front); `svcIdx` counts consumed service draws. -/
structure DayState where
  events : List Event
  waiting : List ℚ
  freeWorker : Bool
  actualTime : ℚ
  totalArticles : ℤ
  hist : List (ℕ × ℚ)
  awaits : List ℚ
  svcIdx : ℕ
deriving DecidableEq

/-- Initial day state: the generated arrival times as ARRIVE events, server
free, time zero, all accumulators empty; `k` service draws already consumed
by earlier days. -/
def mkInit (ts : List ℕ) (k : ℕ) : DayState :=
  { events := ts.map (fun (t : ℕ) => ((t : ℚ), EventType.ARRIVE))
    waiting := []
    freeWorker := true
    actualTime := 0
    totalArticles := 0
    hist := []
    awaits := []
    svcIdx := k }

/-- Extraction of the minimal-timestamp event (leftmost among minima) and
the remaining queue; `none` on the empty queue. -/
def pqExtract : List Event → Option (Event × List Event)
  | [] => none
  | e :: rest =>
      match pqExtract rest with
      | none => some (e, [])
      | some (m, rest') => if m.1 < e.1 then some (m, e :: rest') else some (e, rest)

/-- One iteration of the `simulate_day` while-loop, processing extracted
event `e` with remaining queue `rest`.  Mirrors the Python statement order:
elapsed-time bookkeeping with the pre-event server state and queue length,
then the ARRIVE/FINISH transition, then immediate admission of the head
waiting customer when the server is free. -/
def stepDay (svc : ℕ → ℚ) (e : Event) (rest : List Event) (st : DayState) : DayState :=
  let t := e.1
  let arts := st.totalArticles + (if st.freeWorker then ⌊(t - st.actualTime) * 22 / 3600⌋ else 0)
  let hist1 := histAdd st.hist st.waiting.length (t - st.actualTime)
  let waiting1 := if e.2 = EventType.ARRIVE then st.waiting ++ [t] else st.waiting
  let free1 := if e.2 = EventType.FINISH then true else st.freeWorker
  match free1, waiting1 with
  | true, p :: ws =>
      { events := rest ++ [(svc st.svcIdx + t, EventType.FINISH)]
        waiting := ws
        freeWorker := false
        actualTime := t
        totalArticles := arts
        hist := hist1
        awaits := st.awaits ++ [t - p]
        svcIdx := st.svcIdx + 1 }
  | b, w =>
      { events := rest
        waiting := w
        freeWorker := b
        actualTime := t
        totalArticles := arts
        hist := hist1
        awaits := st.awaits
        svcIdx := st.svcIdx }

/-- The event loop, fuel-indexed.  Returns the final state and the trace of
states before each iteration (the last trace element is the final state). -/
def runDayF (svc : ℕ → ℚ) : ℕ → DayState → DayState × List DayState
  | 0, st => (st, [st])
  | fuel + 1, st =>
      match pqExtract st.events with
      | none => (st, [st])
      | some (e, rest) =>
          let r := runDayF svc fuel (stepDay svc e rest st)
          (r.1, st :: r.2)

/-- Sufficient fuel for a day: each iteration strictly decreases
`2·#events + #waiting`, counting each scheduled FINISH against an admission. -/
def dayFuel (st : DayState) : ℕ := 2 * st.events.length + st.waiting.length + 1

/-- The whole `simulate_day` event loop. -/
def runDay (svc : ℕ → ℚ) (st : DayState) : DayState × List DayState :=
  runDayF svc (dayFuel st) st

/-- `simulate_day` with explicit tape threading: returns the per-day triple
`(sum_t / actual_time, total_articles, np.mean(people_awaiting_time))`
plus the unconsumed gap tape and service-draw index.  Outer `none` models
a run with no result: generator tape exhaustion, or the
`ZeroDivisionError` raised by `sum_t / actual_time` when no event was
processed; the inner `Option ℚ` is the possibly-NaN waiting-time mean. -/
def simulateDayT (T : ℤ) (svc : ℕ → ℚ) (gaps : List ℕ) (k : ℕ) :
    Option ((ℚ × ℤ × Option ℚ) × List ℕ × ℕ) :=
  match generate_arrives T gaps with
  | none => none
  | some (ts, leftover) =>
      let r := runDay svc (mkInit ts k)
      if r.1.actualTime = 0 then none
      else
        some ((histWeighted r.1.hist / r.1.actualTime, r.1.totalArticles, pymean r.1.awaits),
              leftover, r.1.svcIdx)

/-- `simulate_day` as called externally (fresh draw streams). -/
def simulate_day (T : ℤ) (svc : ℕ → ℚ) (gaps : List ℕ) : Option (ℚ × ℤ × Option ℚ) :=
  (simulateDayT T svc gaps 0).map (fun r => r.1)

/-- The day loop of `simulate`: collect each day's triple, threading the
draw tapes across days. -/
def simulateLoop (T : ℤ) (svc : ℕ → ℚ) : ℕ → List ℕ → ℕ → Option (List (ℚ × ℤ × Option ℚ))
  | 0, _, _ => some []
  | d + 1, gaps, k =>
      match simulateDayT T svc gaps k with
      | none => none
      | some (r, gaps2, k2) => (simulateLoop T svc d gaps2 k2).map (fun rs => r :: rs)

/-- Sequence a list of possibly-NaN values: `none` as soon as one entry is
NaN (any arithmetic with NaN is NaN). -/
def seqO : List (Option ℚ) → Option (List ℚ)
  | [] => some []
  | none :: _ => none
  | some v :: xs => (seqO xs).map (fun vs => v :: vs)

/-- `np.mean` over a list of possibly-NaN values: NaN when the list is
empty or contains a NaN. -/
def pymeanO (l : List (Option ℚ)) : Option ℚ := (seqO l).bind pymean

/-- `simulate(days)`: run `days` day-simulations and return the cross-day
means in the order (waiting time, line length, articles). -/
def simulate (T : ℤ) (svc : ℕ → ℚ) (days : ℕ) (gaps : List ℕ) :
    Option (Option ℚ × Option ℚ × Option ℚ) :=
  (simulateLoop T svc days gaps 0).map (fun rs =>
    (pymeanO (rs.map (fun r => r.2.2)),
     pymean (rs.map (fun r => r.1)),
     pymean (rs.map (fun r => ((r.2.1 : ℚ))))))

/-- Number of pending FINISH events. -/
def countFinish (l : List Event) : ℕ := l.countP (fun e => decide (e.2 = EventType.FINISH))

/-- Python `<` on event tuples, as used by the `heapq` machinery underlying
`PriorityQueue`.  Tuple comparison locates the first component where the two
tuples differ (by `==`) and compares it with `<`; identical tuples compare
`False`.  When the timestamps are numerically equal but the kinds differ,
the comparison falls through to `EventType < EventType`, which raises
`TypeError` (`auto()` enum members define no order); `Except.error ()`
models that exception. -/
def pyLtEvent (a b : Event) : Except Unit Bool :=
  if a.1 = b.1 then
    if a.2 = b.2 then Except.ok false else Except.error ()
  else Except.ok (decide (a.1 < b.1))

/-- `heapq._siftdown(heap, startpos, pos)` with `newitem = heap[pos]`:
walk `pos` up toward `startpos`, moving each parent greater than `newitem`
down, and place `newitem` at the final position.  The fuel bounds the walk
(`pos` strictly decreases, so `pos` itself is sufficient fuel). -/
def siftdownF : ℕ → List Event → ℕ → ℕ → Event → Except Unit (List Event)
  | 0, heap, _, pos, newitem => Except.ok (heap.set pos newitem)
  | fuel + 1, heap, startpos, pos, newitem =>
      if startpos < pos then
        match heap[(pos - 1) / 2]? with
        | none => Except.error ()
        | some parent =>
            match pyLtEvent newitem parent with
            | Except.error u => Except.error u
            | Except.ok true => siftdownF fuel (heap.set pos parent) startpos ((pos - 1) / 2) newitem
            | Except.ok false => Except.ok (heap.set pos newitem)
      else Except.ok (heap.set pos newitem)

/-- `heapq.heappush`: append the item and sift it toward the root. -/
def heappush (heap : List Event) (item : Event) : Except Unit (List Event) :=
  siftdownF heap.length (heap ++ [item]) 0 heap.length item

/-- `heapq._siftup(heap, pos)` with `newitem = heap[pos]`: walk down moving
the smaller child up (comparing the two children where both exist), then
sift the new item back down from the reached leaf.  The fuel bounds the
walk (`heap.length` is sufficient). -/
def siftupF : ℕ → List Event → ℕ → ℕ → Event → Except Unit (List Event)
  | 0, heap, _, pos, newitem => Except.ok (heap.set pos newitem)
  | fuel + 1, heap, startpos, pos, newitem =>
      if 2 * pos + 1 < heap.length then
        match
          (if 2 * pos + 2 < heap.length then
            match heap[2 * pos + 1]?, heap[2 * pos + 2]? with
            | some c, some r =>
                match pyLtEvent c r with
                | Except.error u => Except.error u
                | Except.ok b => Except.ok (if b then 2 * pos + 1 else 2 * pos + 2)
            | _, _ => Except.error ()
          else Except.ok (2 * pos + 1) : Except Unit ℕ) with
        | Except.error u => Except.error u
        | Except.ok cp =>
            match heap[cp]? with
            | none => Except.error ()
            | some c => siftupF fuel (heap.set pos c) startpos cp newitem
      else siftdownF pos (heap.set pos newitem) startpos pos newitem

/-- `heapq.heappop`: pop the last element; if the heap remains non-empty,
move it to the root and sift up, returning the old root. -/
def heappop (heap : List Event) : Except Unit (Event × List Event) :=
  match heap.getLast? with
  | none => Except.error ()
  | some lastelt =>
      match heap.dropLast with
      | [] => Except.ok (lastelt, [])
      | h0 :: rest =>
          match siftupF (h0 :: rest).length (lastelt :: rest) 0 0 lastelt with
          | Except.error u => Except.error u
          | Except.ok h2 => Except.ok (h0, h2)

/-! ## Helper lemmas -/

@[simp] theorem EventType.arrive_ne_finish : EventType.ARRIVE ≠ EventType.FINISH := by decide

@[simp] theorem EventType.finish_ne_arrive : EventType.FINISH ≠ EventType.ARRIVE := by decide

theorem pqExtract_eq_none {l : List Event} (h : pqExtract l = none) : l = [] := by
  cases l with
  | nil => rfl
  | cons e rest =>
    rcases hr : pqExtract rest with _ | ⟨m, rest'⟩ <;> simp only [pqExtract, hr] at h
    · simp at h
    · by_cases hlt : m.1 < e.1
      · rw [if_pos hlt] at h; simp at h
      · rw [if_neg hlt] at h; simp at h

theorem pqExtract_perm {l : List Event} {e : Event} {r : List Event}
    (h : pqExtract l = some (e, r)) : l.Perm (e :: r) := by
  induction l generalizing e r with
  | nil => simp [pqExtract] at h
  | cons a rest ih =>
    rcases hr : pqExtract rest with _ | ⟨m, rest'⟩ <;> simp only [pqExtract, hr] at h
    · simp only [Option.some.injEq, Prod.mk.injEq] at h
      obtain ⟨he, hrr⟩ := h
      subst he; subst hrr
      have := pqExtract_eq_none hr
      subst this
      exact List.Perm.refl _
    · have hperm := ih hr
      by_cases hlt : m.1 < a.1
      · rw [if_pos hlt] at h
        simp only [Option.some.injEq, Prod.mk.injEq] at h
        obtain ⟨he, hrr⟩ := h
        subst he; subst hrr
        exact (hperm.cons a).trans (List.Perm.swap _ _ _)
      · rw [if_neg hlt] at h
        simp only [Option.some.injEq, Prod.mk.injEq] at h
        obtain ⟨he, hrr⟩ := h
        subst he; subst hrr
        exact List.Perm.refl _

theorem pqExtract_min {l : List Event} {e : Event} {r : List Event}
    (h : pqExtract l = some (e, r)) : ∀ x ∈ l, e.1 ≤ x.1 := by
  induction l generalizing e r with
  | nil => simp [pqExtract] at h
  | cons a rest ih =>
    rcases hr : pqExtract rest with _ | ⟨m, rest'⟩ <;> simp only [pqExtract, hr] at h
    · simp only [Option.some.injEq, Prod.mk.injEq] at h
      obtain ⟨he, _⟩ := h
      subst he
      have := pqExtract_eq_none hr
      subst this
      intro x hx
      simp at hx
      subst hx
      exact le_refl _
    · have hmin := ih hr
      by_cases hlt : m.1 < a.1
      · rw [if_pos hlt] at h
        simp only [Option.some.injEq, Prod.mk.injEq] at h
        obtain ⟨he, _⟩ := h
        subst he
        intro x hx
        rcases List.mem_cons.1 hx with hx | hx
        · subst hx; exact le_of_lt hlt
        · exact hmin x hx
      · rw [if_neg hlt] at h
        simp only [Option.some.injEq, Prod.mk.injEq] at h
        obtain ⟨he, _⟩ := h
        subst he
        intro x hx
        rcases List.mem_cons.1 hx with hx | hx
        · subst hx; exact le_refl _
        · exact le_trans (not_lt.1 hlt) (hmin x hx)

theorem histSum_histAdd (h : List (ℕ × ℚ)) (k : ℕ) (v : ℚ) :
    histSum (histAdd h k v) = histSum h + v := by
  induction h with
  | nil => simp [histAdd, histSum]
  | cons p rest ih =>
    obtain ⟨k', v'⟩ := p
    by_cases hk : k' = k
    · simp [histAdd, hk, histSum]
      ring
    · simp [histAdd, hk, histSum] at ih ⊢
      rw [ih]
      ring

theorem runDayF_trace_head (svc : ℕ → ℚ) (fuel : ℕ) (st : DayState) :
    ((runDayF svc fuel st).2).head? = some st := by
  cases fuel with
  | zero => rfl
  | succ n =>
    simp only [runDayF]
    rcases h : pqExtract st.events with _ | ⟨e, rest⟩ <;> simp

theorem runDayF_trace_ne_nil (svc : ℕ → ℚ) (fuel : ℕ) (st : DayState) :
    (runDayF svc fuel st).2 ≠ [] := by
  intro hnil
  have := runDayF_trace_head svc fuel st
  rw [hnil] at this
  simp at this

theorem runDayF_last (svc : ℕ → ℚ) : ∀ (fuel : ℕ) (st : DayState),
    ((runDayF svc fuel st).2).getLast? = some (runDayF svc fuel st).1 := by
  intro fuel
  induction fuel with
  | zero => intro st; rfl
  | succ n ih =>
    intro st
    simp only [runDayF]
    rcases h : pqExtract st.events with _ | ⟨e, rest⟩
    · rfl
    · rcases htr : (runDayF svc n (stepDay svc e rest st)).2 with _ | ⟨x, xs⟩
      · exact absurd htr (runDayF_trace_ne_nil svc n _)
      · have := ih (stepDay svc e rest st)
        rw [htr] at this
        simpa [List.getLast?_cons_cons, htr] using this

theorem runDayF_forall (svc : ℕ → ℚ) (P : DayState → Prop)
    (hstep : ∀ st e rest, pqExtract st.events = some (e, rest) → P st → P (stepDay svc e rest st)) :
    ∀ (fuel : ℕ) (st : DayState), P st → ((runDayF svc fuel st).2).Forall P := by
  intro fuel
  induction fuel with
  | zero => intro st hP; exact hP
  | succ n ih =>
    intro st hP
    simp only [runDayF]
    rcases h : pqExtract st.events with _ | ⟨e, rest⟩
    · exact hP
    · exact (List.forall_cons _ _ _).2 ⟨hP, ih _ (hstep st e rest h hP)⟩

theorem runDayF_final (svc : ℕ → ℚ) (P : DayState → Prop)
    (hstep : ∀ st e rest, pqExtract st.events = some (e, rest) → P st → P (stepDay svc e rest st))
    (fuel : ℕ) (st : DayState) (hP : P st) : P (runDayF svc fuel st).1 := by
  have hall := runDayF_forall svc P hstep fuel st hP
  have hlast := runDayF_last svc fuel st
  rw [List.forall_iff_forall_mem] at hall
  exact hall _ (List.mem_of_getLast?_eq_some hlast)

theorem runDayF_chain (svc : ℕ → ℚ) (P : DayState → Prop) (R : DayState → DayState → Prop)
    (hstep : ∀ st e rest, pqExtract st.events = some (e, rest) → P st → P (stepDay svc e rest st))
    (hrel : ∀ st e rest, pqExtract st.events = some (e, rest) → P st → R st (stepDay svc e rest st)) :
    ∀ (fuel : ℕ) (st : DayState), P st → List.Chain' R ((runDayF svc fuel st).2) := by
  intro fuel
  induction fuel with
  | zero => intro st _; exact List.chain'_singleton st
  | succ n ih =>
    intro st hP
    simp only [runDayF]
    rcases h : pqExtract st.events with _ | ⟨e, rest⟩
    · exact List.chain'_singleton st
    · refine List.chain'_cons'.2 ⟨?_, ih _ (hstep st e rest h hP)⟩
      intro y hy
      rw [runDayF_trace_head svc n _] at hy
      simp only [Option.mem_def, Option.some.injEq] at hy
      subst hy
      exact hrel st e rest h hP

theorem genTimes_spec (T : ℤ) : ∀ (tape : List ℕ) (t : ℕ) (ts lo : List ℕ),
    genTimes T t tape = some (ts, lo) →
    List.Chain' (· ≤ ·) ts ∧ (∀ x ∈ ts, t ≤ x ∧ (x : ℤ) < T) ∧ (ts = [] ∨ ts.head? = some t) := by
  intro tape
  induction tape with
  | nil =>
    intro t ts lo h
    simp only [genTimes] at h
    by_cases ht : (t : ℤ) < T
    · rw [if_pos ht] at h; simp at h
    · rw [if_neg ht] at h
      simp only [Option.some.injEq, Prod.mk.injEq] at h
      obtain ⟨h1, _⟩ := h
      subst h1
      simp
  | cons g gs ih =>
    intro t ts lo h
    simp only [genTimes] at h
    by_cases ht : (t : ℤ) < T
    · rw [if_pos ht] at h
      rcases hg : genTimes T (t + g) gs with _ | ⟨ts', lo'⟩ <;> rw [hg] at h
      · simp at h
      · simp only [Option.map_some', Option.some.injEq, Prod.mk.injEq] at h
        obtain ⟨hts, hlo⟩ := h
        subst hts; subst hlo
        obtain ⟨hch, hmem, hhd⟩ := ih (t + g) ts' lo' hg
        refine ⟨?_, ?_, Or.inr rfl⟩
        · refine List.chain'_cons'.2 ⟨?_, hch⟩
          intro y hy
          rcases hhd with hnil | hhd
          · subst hnil; simp at hy
          · rw [hhd] at hy
            simp only [Option.mem_def, Option.some.injEq] at hy
            subst hy
            exact Nat.le_add_right t g
        · intro x hx
          rcases List.mem_cons.1 hx with hx | hx
          · subst hx; exact ⟨le_refl _, ht⟩
          · obtain ⟨hle, hlt⟩ := hmem x hx
            exact ⟨le_trans (Nat.le_add_right t g) hle, hlt⟩
    · rw [if_neg ht] at h
      simp only [Option.some.injEq, Prod.mk.injEq] at h
      obtain ⟨h1, _⟩ := h
      subst h1
      simp

/-! ## Claims -/

/-- C4: Histogram conservation — for every completed day, the sum of the
durations recorded in the time-weighted queue-length histogram equals the
final `actual_time` of the day. -/
theorem histogram_conservation (svc : ℕ → ℚ) (ts : List ℕ) (k : ℕ) :
    histSum ((runDay svc (mkInit ts k)).1.hist) = (runDay svc (mkInit ts k)).1.actualTime := by
  refine runDayF_final svc (fun st => histSum st.hist = st.actualTime) ?_ _ _ ?_
  · intro st e rest _ hP
    simp only [stepDay]
    split <;> simp only [histSum_histAdd, hP] <;> ring
  · simp [mkInit, histSum]

/-- C1: when the horizon is at most the first Poisson draw the generated
event set is empty; `simulate_day` then divides `sum_t` by `actual_time = 0`
and has no defined result (Python raises `ZeroDivisionError`), rather than
returning the degenerate statistics the specification requires. -/
theorem empty_day_has_no_defined_result (T : ℤ) (g : ℕ) (gs : List ℕ) (svc : ℕ → ℚ)
    (h : T ≤ (g : ℤ)) : simulate_day T svc (g :: gs) = none := by
  have hnot : ¬ ((g : ℤ) < T) := not_lt.2 h
  cases gs with
  | nil =>
    simp only [simulate_day, simulateDayT, generate_arrives, genTimes, if_neg hnot]
    simp [runDay, runDayF, mkInit, dayFuel, pqExtract]
  | cons g2 gs2 =>
    simp only [simulate_day, simulateDayT, generate_arrives, genTimes, if_neg hnot]
    simp [runDay, runDayF, mkInit, dayFuel, pqExtract]

theorem empty_day_has_no_defined_result_witness :
    ((3600 : ℤ) ≤ ((4000 : ℕ) : ℤ)) ∧ simulate_day 3600 (fun _ => 1) [4000] = none :=
  ⟨by decide, empty_day_has_no_defined_result 3600 4000 [] (fun _ => 1) (by decide)⟩

/-- C2: the constructor accepts a non-positive mean delay without any
invalid-parameter signal (it just stores the converted value), and with a
zero person mean delay every Poisson gap draw is zero, so no finite number
of draws ever lets `_generate_arrives` reach the horizon: the generation
loop never terminates instead of being rejected at configuration time. -/
theorem zero_delay_accepted_and_arrival_loop_never_ends :
    (LibSimulation.init 8 0 5 = { time := 28800, person_delay := 0, service_delay := 300 }) ∧
    ∀ (T : ℤ) (n : ℕ), 0 < T → generate_arrives T (List.replicate n 0) = none := by
  constructor
  · norm_num [LibSimulation.init, pyInt]
  · intro T n hT
    have key : ∀ m, genTimes T 0 (List.replicate m 0) = none := by
      intro m
      induction m with
      | zero => simp [genTimes, hT]
      | succ j ih => simp [genTimes, hT, List.replicate_succ, ih]
    cases n with
    | zero => rfl
    | succ m =>
      simpa [generate_arrives, List.replicate_succ] using key m

theorem zero_delay_accepted_and_arrival_loop_never_ends_witness :
    ((0 : ℤ) < 7) ∧ generate_arrives 7 (List.replicate 3 0) = none :=
  ⟨by decide, zero_delay_accepted_and_arrival_loop_never_ends.2 7 3 (by decide)⟩

/-- C3 (counterexample): a zero Poisson gap (drawn with positive
probability) makes `_generate_arrives` emit two ARRIVE events with equal
timestamps, so the generated timestamps are not strictly increasing. -/
theorem arrival_times_not_strictly_increasing :
    generate_arrives 10 [5, 0, 9] = some ([5, 5], []) ∧
    ¬ List.Chain' (· < ·) ([5, 5] : List ℕ) := by
  refine ⟨by decide, ?_⟩
  simp [List.chain'_cons]

/-- C3 (amended): the arrival generator produces a finite sequence of
ARRIVE timestamps that is non-decreasing (not strictly increasing: a zero
gap repeats a timestamp), every emitted timestamp is strictly below the
horizon, and generation stops at the first timestamp reaching the horizon. -/
theorem arrival_times_sorted_below_horizon (T : ℤ) (gaps ts lo : List ℕ)
    (h : generate_arrives T gaps = some (ts, lo)) :
    List.Chain' (· ≤ ·) ts ∧ ∀ x ∈ ts, (x : ℤ) < T := by
  cases gaps with
  | nil => simp [generate_arrives] at h
  | cons g gs =>
    obtain ⟨hch, hmem, _⟩ := genTimes_spec T gs g ts lo h
    exact ⟨hch, fun x hx => (hmem x hx).2⟩

theorem arrival_times_sorted_below_horizon_witness :
    List.Chain' (· ≤ ·) ([3, 7] : List ℕ) ∧ ∀ x ∈ ([3, 7] : List ℕ), (x : ℤ) < 10 :=
  arrival_times_sorted_below_horizon 10 [3, 4, 9] [3, 7] [] (by decide)

theorem pymean_singleton (x : ℚ) : pymean [x] = some x := by
  simp [pymean]

/-- C5: with the same configuration and the same random draw streams,
`simulate` with `days = 1` returns exactly `simulate_day`'s triple
reordered from the per-day convention (queue length, articles, waiting
mean) into the multi-day convention (waiting mean, queue length,
articles), each single-day mean being the day's value itself. -/
theorem simulate_one_day_is_reordered_simulate_day (T : ℤ) (svc : ℕ → ℚ) (gaps : List ℕ) :
    simulate T svc 1 gaps =
      (simulate_day T svc gaps).map (fun r => (r.2.2, some r.1, some ((r.2.1 : ℚ)))) := by
  simp only [simulate, simulateLoop, simulate_day]
  rcases h : simulateDayT T svc gaps 0 with _ | ⟨⟨q, a, w⟩, gaps2, k2⟩
  · rfl
  · simp only [simulateLoop, Option.map_some', List.map_cons, List.map_nil]
    cases w <;> simp [pymeanO, seqO, pymean_singleton]

theorem countFinish_cons (e : Event) (l : List Event) :
    countFinish (e :: l) = countFinish l + (if e.2 = EventType.FINISH then 1 else 0) := by
  simp [countFinish, List.countP_cons]

theorem countFinish_append (l1 l2 : List Event) :
    countFinish (l1 ++ l2) = countFinish l1 + countFinish l2 := by
  simp [countFinish]

theorem countFinish_perm {l1 l2 : List Event} (h : l1.Perm l2) :
    countFinish l1 = countFinish l2 :=
  h.countP_eq _

theorem countFinish_arrivals (ts : List ℕ) :
    countFinish (ts.map (fun (t : ℕ) => ((t : ℚ), EventType.ARRIVE))) = 0 := by
  induction ts with
  | nil => rfl
  | cons a l ih =>
    rw [List.map_cons, countFinish_cons, ih]
    simp

theorem stepDay_eq (svc : ℕ → ℚ) (e : Event) (rest : List Event) (st : DayState) :
    (∃ p ws, (if e.2 = EventType.FINISH then true else st.freeWorker) = true ∧
      (if e.2 = EventType.ARRIVE then st.waiting ++ [e.1] else st.waiting) = p :: ws ∧
      stepDay svc e rest st =
        { events := rest ++ [(svc st.svcIdx + e.1, EventType.FINISH)]
          waiting := ws
          freeWorker := false
          actualTime := e.1
          totalArticles :=
            st.totalArticles + (if st.freeWorker then ⌊(e.1 - st.actualTime) * 22 / 3600⌋ else 0)
          hist := histAdd st.hist st.waiting.length (e.1 - st.actualTime)
          awaits := st.awaits ++ [e.1 - p]
          svcIdx := st.svcIdx + 1 }) ∨
    (((if e.2 = EventType.FINISH then true else st.freeWorker) = false ∨
      (if e.2 = EventType.ARRIVE then st.waiting ++ [e.1] else st.waiting) = []) ∧
      stepDay svc e rest st =
        { events := rest
          waiting := (if e.2 = EventType.ARRIVE then st.waiting ++ [e.1] else st.waiting)
          freeWorker := (if e.2 = EventType.FINISH then true else st.freeWorker)
          actualTime := e.1
          totalArticles :=
            st.totalArticles + (if st.freeWorker then ⌊(e.1 - st.actualTime) * 22 / 3600⌋ else 0)
          hist := histAdd st.hist st.waiting.length (e.1 - st.actualTime)
          awaits := st.awaits
          svcIdx := st.svcIdx }) := by
  cases hb : (if e.2 = EventType.FINISH then true else st.freeWorker) with
  | false =>
    right
    refine ⟨Or.inl rfl, ?_⟩
    simp only [stepDay, hb]
  | true =>
    cases hw : (if e.2 = EventType.ARRIVE then st.waiting ++ [e.1] else st.waiting) with
    | nil =>
      right
      refine ⟨Or.inr rfl, ?_⟩
      simp only [stepDay, hb, hw]
    | cons p ws =>
      left
      refine ⟨p, ws, rfl, rfl, ?_⟩
      simp only [stepDay, hb, hw]

theorem stepDay_finish_pres (svc : ℕ → ℚ) (st : DayState) (e : Event) (rest : List Event)
    (hx : pqExtract st.events = some (e, rest))
    (h1 : countFinish st.events ≤ 1)
    (h2 : st.freeWorker = true → countFinish st.events = 0) :
    countFinish (stepDay svc e rest st).events ≤ 1 ∧
      ((stepDay svc e rest st).freeWorker = true →
        countFinish (stepDay svc e rest st).events = 0) := by
  have hc : countFinish st.events = countFinish rest + (if e.2 = EventType.FINISH then 1 else 0) := by
    rw [countFinish_perm (pqExtract_perm hx), countFinish_cons]
  have hrest0 : (if e.2 = EventType.FINISH then true else st.freeWorker) = true →
      countFinish rest = 0 := by
    intro hb
    by_cases hke : e.2 = EventType.FINISH
    · rw [if_pos hke] at hc
      rw [hc] at h1
      omega
    · rw [if_neg hke] at hb hc
      have := h2 hb
      omega
  rcases stepDay_eq svc e rest st with ⟨p, ws, hb, hw, heq⟩ | ⟨hside, heq⟩ <;> rw [heq]
  · have h0 := hrest0 hb
    refine ⟨?_, ?_⟩
    · dsimp only
      rw [countFinish_append, h0]
      have hone : countFinish [(svc st.svcIdx + e.1, EventType.FINISH)] = 1 := by
        simp [countFinish]
      omega
    · intro hcontra
      simp at hcontra
  · constructor
    · dsimp only
      by_cases hke : e.2 = EventType.FINISH
      · rw [if_pos hke] at hc; omega
      · rw [if_neg hke] at hc; omega
    · intro hb
      dsimp only at hb ⊢
      exact hrest0 hb

/-- C6: server exclusivity — along the whole event-loop trace of a day
started from generated arrivals, at most one FINISH event is ever pending,
and no FINISH is pending while the server is free; a FINISH is scheduled
exactly when the server goes busy, and only a FINISH frees it. -/
theorem server_exclusivity (svc : ℕ → ℚ) (ts : List ℕ) (k : ℕ) :
    ((runDay svc (mkInit ts k)).2).Forall
      (fun st => countFinish st.events ≤ 1 ∧ (st.freeWorker = true → countFinish st.events = 0)) := by
  refine runDayF_forall svc _ ?_ _ _ ?_
  · intro st e rest hx hP
    exact stepDay_finish_pres svc st e rest hx hP.1 hP.2
  · have h : countFinish (mkInit ts k).events = 0 := countFinish_arrivals ts
    exact ⟨h.le.trans (Nat.zero_le 1), fun _ => h⟩

theorem stepDay_time_bound (svc : ℕ → ℚ) (hsvc : ∀ j, 0 ≤ svc j)
    (st : DayState) (e : Event) (rest : List Event)
    (hx : pqExtract st.events = some (e, rest))
    (hP : ∀ x ∈ st.events, st.actualTime ≤ x.1) :
    (∀ x ∈ (stepDay svc e rest st).events, (stepDay svc e rest st).actualTime ≤ x.1) ∧
      (stepDay svc e rest st).actualTime = e.1 ∧ st.actualTime ≤ e.1 := by
  have hmin := pqExtract_min hx
  have hmem : ∀ x : Event, x ∈ st.events ↔ x ∈ e :: rest :=
    fun x => (pqExtract_perm hx).mem_iff
  have hee : e ∈ st.events := (hmem e).2 (List.mem_cons_self e rest)
  have hrestmem : ∀ x ∈ rest, e.1 ≤ x.1 := by
    intro x hxm
    exact hmin x ((hmem x).2 (List.mem_cons_of_mem e hxm))
  rcases stepDay_eq svc e rest st with ⟨p, ws, _, _, heq⟩ | ⟨_, heq⟩ <;> rw [heq] <;> dsimp only
  · refine ⟨?_, rfl, hP e hee⟩
    intro x hxm
    rcases List.mem_append.1 hxm with hxm | hxm
    · exact hrestmem x hxm
    · simp only [List.mem_singleton] at hxm
      subst hxm
      exact le_add_of_nonneg_left (hsvc st.svcIdx)
  · refine ⟨?_, rfl, hP e hee⟩
    intro x hxm
    exact hrestmem x hxm

theorem mkInit_time_bound (ts : List ℕ) (k : ℕ) :
    ∀ x ∈ (mkInit ts k).events, (mkInit ts k).actualTime ≤ x.1 := by
  intro x hxm
  have hxm2 : x ∈ ts.map (fun (t : ℕ) => ((t : ℚ), EventType.ARRIVE)) := hxm
  rw [List.mem_map] at hxm2
  obtain ⟨t, _, rfl⟩ := hxm2
  exact Nat.cast_nonneg t

/-- C7 (amended): idle-time article bound — for every completed day the
total articles, a sum of `⌊elapsed * 22 / 3600⌋` over the idle intervals,
is at most `⌊final_time * 22 / 3600⌋`; equality does not require an
all-idle day (both sides can vanish while the server was busy). -/
theorem idle_articles_bounded (svc : ℕ → ℚ) (ts : List ℕ) (k : ℕ)
    (hsvc : ∀ j, 0 ≤ svc j) :
    (runDay svc (mkInit ts k)).1.totalArticles ≤
      ⌊(runDay svc (mkInit ts k)).1.actualTime * 22 / 3600⌋ := by
  have h := runDayF_final svc
    (fun st => (∀ x ∈ st.events, st.actualTime ≤ x.1) ∧
      st.totalArticles ≤ ⌊st.actualTime * 22 / 3600⌋) ?_ (dayFuel (mkInit ts k)) (mkInit ts k) ?_
  · exact h.2
  · intro st e rest hx hP
    obtain ⟨hP1, hP2⟩ := hP
    obtain ⟨hb1, hb2, hb3⟩ := stepDay_time_bound svc hsvc st e rest hx hP1
    refine ⟨hb1, ?_⟩
    have harts : (stepDay svc e rest st).totalArticles =
        st.totalArticles + (if st.freeWorker then ⌊(e.1 - st.actualTime) * 22 / 3600⌋ else 0) := by
      rcases stepDay_eq svc e rest st with ⟨p, ws, _, _, heq⟩ | ⟨_, heq⟩ <;> rw [heq]
    rw [harts, hb2]
    by_cases hf : st.freeWorker
    · rw [if_pos hf]
      have hsplit : st.actualTime * 22 / 3600 + (e.1 - st.actualTime) * 22 / 3600 =
          e.1 * 22 / 3600 := by ring
      calc st.totalArticles + ⌊(e.1 - st.actualTime) * 22 / 3600⌋
          ≤ ⌊st.actualTime * 22 / 3600⌋ + ⌊(e.1 - st.actualTime) * 22 / 3600⌋ :=
            add_le_add_right hP2 _
        _ ≤ ⌊st.actualTime * 22 / 3600 + (e.1 - st.actualTime) * 22 / 3600⌋ :=
            Int.le_floor_add _ _
        _ = ⌊e.1 * 22 / 3600⌋ := by rw [hsplit]
    · rw [if_neg hf, add_zero]
      have h22 : (0 : ℚ) ≤ 22 / 3600 := by norm_num
      have hmul : st.actualTime * 22 / 3600 ≤ e.1 * 22 / 3600 := by
        calc st.actualTime * 22 / 3600 = st.actualTime * (22 / 3600) := by ring
          _ ≤ e.1 * (22 / 3600) := mul_le_mul_of_nonneg_right hb3 h22
          _ = e.1 * 22 / 3600 := by ring
      exact le_trans hP2 (Int.floor_le_floor hmul)
  · exact ⟨mkInit_time_bound ts k, by simp [mkInit]⟩

theorem idle_articles_bounded_witness :
    (runDay (fun _ => 7) (mkInit [3, 5] 0)).1.totalArticles ≤
      ⌊(runDay (fun _ => 7) (mkInit [3, 5] 0)).1.actualTime * 22 / 3600⌋ :=
  idle_articles_bounded (fun _ => 7) [3, 5] 0 (fun j => by norm_num)

/-- C7 (counterexample): a day whose only arrival is served past a small
horizon reaches the article bound with equality although the server is
busy for most of the day (trace of server states contains `false`), so
equality does not imply an all-idle day. -/
theorem articles_reach_bound_with_busy_server :
    ((runDay (fun _ => 50) (mkInit [10] 0)).1.totalArticles =
        ⌊(runDay (fun _ => 50) (mkInit [10] 0)).1.actualTime * 22 / 3600⌋) ∧
    ((runDay (fun _ => 50) (mkInit [10] 0)).2.map (fun s => s.freeWorker)) = [true, false, true] ∧
    (runDay (fun _ => 50) (mkInit [10] 0)).1.actualTime = 60 := by
  norm_num [runDay, runDayF, stepDay, pqExtract, mkInit, dayFuel, histAdd]

/-- C8: monotonic time — the timestamps of the states along a day's event
loop (each state's `actual_time` is the timestamp of the last extracted
event, starting at 0) are non-decreasing: extraction always yields the
minimal pending timestamp and scheduled FINISH events never lie in the
past, given non-negative service draws. -/
theorem extracted_times_monotone (svc : ℕ → ℚ) (ts : List ℕ) (k : ℕ)
    (hsvc : ∀ j, 0 ≤ svc j) :
    List.Chain' (· ≤ ·) (((runDay svc (mkInit ts k)).2).map (fun s => s.actualTime)) := by
  rw [List.chain'_map]
  refine runDayF_chain svc (fun st => ∀ x ∈ st.events, st.actualTime ≤ x.1) _ ?_ ?_ _ _
    (mkInit_time_bound ts k)
  · intro st e rest hx hP
    exact (stepDay_time_bound svc hsvc st e rest hx hP).1
  · intro st e rest hx hP
    obtain ⟨_, hb2, hb3⟩ := stepDay_time_bound svc hsvc st e rest hx hP
    rw [hb2]
    exact hb3

theorem extracted_times_monotone_witness :
    List.Chain' (· ≤ ·) (((runDay (fun _ => 9) (mkInit [4, 6] 0)).2).map (fun s => s.actualTime)) :=
  extracted_times_monotone (fun _ => 9) [4, 6] 0 (fun j => by norm_num)

/-- C9 (amended): the Python tuple comparison behind the heap raises
TypeError exactly when the two timestamps are equal and the kinds differ
(ARRIVE vs FINISH, since `EventType` defines no order); two equal-timestamp
ARRIVE events are identical tuples and compare `False` without error, so a
zero Poisson gap does not crash insertion — the heap inserts the duplicate
and ties are broken by heap mechanics, not by an exception. -/
theorem tuple_comparison_errors_iff_tie_between_kinds :
    (∀ a b : Event, pyLtEvent a b = Except.error () ↔ (a.1 = b.1 ∧ a.2 ≠ b.2)) ∧
    (∀ t : ℚ, heappush [(t, EventType.ARRIVE)] (t, EventType.ARRIVE) =
      Except.ok [(t, EventType.ARRIVE), (t, EventType.ARRIVE)]) := by
  constructor
  · intro a b
    unfold pyLtEvent
    by_cases h1 : a.1 = b.1
    · by_cases h2 : a.2 = b.2 <;> simp [h1, h2]
    · simp [h1]
  · intro t
    simp [heappush, siftdownF, pyLtEvent]

/-- C9 (counterexample): the two equal-timestamp ARRIVE events produced by
a zero Poisson gap are inserted into and extracted from the heap without
any TypeError — identical tuples compare as equal — so the claimed
exception does not occur and pairwise-distinct timestamps are not required
for totality. -/
theorem equal_timestamp_arrivals_handled :
    heappush [((5 : ℚ), EventType.ARRIVE)] ((5 : ℚ), EventType.ARRIVE) =
      Except.ok [((5 : ℚ), EventType.ARRIVE), ((5 : ℚ), EventType.ARRIVE)] ∧
    heappop [((5 : ℚ), EventType.ARRIVE), ((5 : ℚ), EventType.ARRIVE)] =
      Except.ok (((5 : ℚ), EventType.ARRIVE), [((5 : ℚ), EventType.ARRIVE)]) := by
  refine ⟨?_, ?_⟩ <;> rfl

theorem stepDay_fields (svc : ℕ → ℚ) (e : Event) (rest : List Event) (st : DayState) :
    (stepDay svc e rest st).actualTime = e.1 ∧
    (stepDay svc e rest st).totalArticles =
      st.totalArticles + (if st.freeWorker then ⌊(e.1 - st.actualTime) * 22 / 3600⌋ else 0) := by
  rcases stepDay_eq svc e rest st with ⟨p, ws, _, _, heq⟩ | ⟨_, heq⟩ <;> rw [heq] <;> exact ⟨rfl, rfl⟩

theorem stepDay_arrive_horizon (T : ℤ) (svc : ℕ → ℚ) (st : DayState) (e : Event)
    (rest : List Event) (hx : pqExtract st.events = some (e, rest))
    (hP : ∀ x ∈ st.events, x.2 = EventType.ARRIVE → x.1 < (T : ℚ)) :
    ∀ x ∈ (stepDay svc e rest st).events, x.2 = EventType.ARRIVE → x.1 < (T : ℚ) := by
  have hmem : ∀ x : Event, x ∈ st.events ↔ x ∈ e :: rest :=
    fun x => (pqExtract_perm hx).mem_iff
  have hrest : ∀ x ∈ rest, x.2 = EventType.ARRIVE → x.1 < (T : ℚ) := by
    intro x hxm
    exact hP x ((hmem x).2 (List.mem_cons_of_mem e hxm))
  rcases stepDay_eq svc e rest st with ⟨p, ws, _, _, heq⟩ | ⟨_, heq⟩ <;> rw [heq] <;> dsimp only
  · intro x hxm
    rcases List.mem_append.1 hxm with hxm | hxm
    · exact hrest x hxm
    · simp only [List.mem_singleton] at hxm
      subst hxm
      intro hk
      simp at hk
  · exact hrest

/-- C10 (amended): the final `actual_time` of a day is the `actual_time`
of the last trace state (the timestamp of the last processed event), and
successive state times are non-decreasing, so it can exceed the horizon
`T` when the last FINISH falls past `T` and the queue-length mean is then
normalized by an elapsed time larger than `T`; however, no idle-time
articles accrue past the horizon: on every step whose event lies at or
beyond `T` the article counter is unchanged, because all ARRIVE events lie
strictly below `T` and the server is busy before every pending FINISH. -/
theorem final_time_is_last_event_no_articles_past_horizon
    (T : ℤ) (svc : ℕ → ℚ) (gaps ts lo : List ℕ) (k : ℕ)
    (hgen : generate_arrives T gaps = some (ts, lo)) (hsvc : ∀ j, 0 ≤ svc j) :
    ((runDay svc (mkInit ts k)).2).getLast? = some (runDay svc (mkInit ts k)).1 ∧
    List.Chain' (fun s s' => s.actualTime ≤ s'.actualTime) ((runDay svc (mkInit ts k)).2) ∧
    List.Chain' (fun s s' => (T : ℚ) ≤ s'.actualTime → s'.totalArticles = s.totalArticles)
      ((runDay svc (mkInit ts k)).2) := by
  have harrZ : ∀ t ∈ ts, (t : ℤ) < T := by
    cases gaps with
    | nil => simp [generate_arrives] at hgen
    | cons g gs =>
      intro t ht
      exact ((genTimes_spec T gs g ts lo hgen).2.1 t ht).2
  have harr : ∀ x ∈ (mkInit ts k).events, x.2 = EventType.ARRIVE → x.1 < (T : ℚ) := by
    intro x hxm _
    have hxm2 : x ∈ ts.map (fun (t : ℕ) => ((t : ℚ), EventType.ARRIVE)) := hxm
    rw [List.mem_map] at hxm2
    obtain ⟨t, ht, rfl⟩ := hxm2
    show (t : ℚ) < (T : ℚ)
    exact_mod_cast harrZ t ht
  refine ⟨runDayF_last svc _ _, ?_, ?_⟩
  · refine runDayF_chain svc (fun st => ∀ x ∈ st.events, st.actualTime ≤ x.1) _ ?_ ?_ _ _
      (mkInit_time_bound ts k)
    · intro st e rest hx hP
      exact (stepDay_time_bound svc hsvc st e rest hx hP).1
    · intro st e rest hx hP
      obtain ⟨_, hb2, hb3⟩ := stepDay_time_bound svc hsvc st e rest hx hP
      rw [hb2]
      exact hb3
  · refine runDayF_chain svc
      (fun st => (∀ x ∈ st.events, x.2 = EventType.ARRIVE → x.1 < (T : ℚ)) ∧
        countFinish st.events ≤ 1 ∧ (st.freeWorker = true → countFinish st.events = 0))
      _ ?_ ?_ _ _ ?_
    · intro st e rest hx hP
      exact ⟨stepDay_arrive_horizon T svc st e rest hx hP.1,
        stepDay_finish_pres svc st e rest hx hP.2.1 hP.2.2⟩
    · intro st e rest hx hP
      obtain ⟨hArr, h1, h2⟩ := hP
      obtain ⟨htime, harts⟩ := stepDay_fields svc e rest st
      intro hT
      rw [htime] at hT
      rw [harts]
      have hmem : ∀ x : Event, x ∈ st.events ↔ x ∈ e :: rest :=
        fun x => (pqExtract_perm hx).mem_iff
      have hee : e ∈ st.events := (hmem e).2 (List.mem_cons_self e rest)
      have hkind : e.2 = EventType.FINISH := by
        cases hk : e.2 with
        | ARRIVE =>
          have := hArr e hee hk
          exact absurd hT (not_le.2 this)
        | FINISH => rfl
      have hfree : st.freeWorker = false := by
        cases hf : st.freeWorker with
        | false => rfl
        | true =>
          have h0 := h2 hf
          have hc : countFinish st.events =
              countFinish rest + (if e.2 = EventType.FINISH then 1 else 0) := by
            rw [countFinish_perm (pqExtract_perm hx), countFinish_cons]
          rw [hkind] at hc
          simp [h0] at hc
      rw [hfree]
      simp
    · refine ⟨harr, ?_, fun _ => ?_⟩ <;>
        · have h : countFinish (mkInit ts k).events = 0 := countFinish_arrivals ts
          omega

theorem final_time_is_last_event_no_articles_past_horizon_witness :
    ((runDay (fun _ => 1000) (mkInit [400] 0)).2).getLast? =
        some (runDay (fun _ => 1000) (mkInit [400] 0)).1 ∧
    List.Chain' (fun s s' => s.actualTime ≤ s'.actualTime)
      ((runDay (fun _ => 1000) (mkInit [400] 0)).2) ∧
    List.Chain' (fun s s' => ((500 : ℤ) : ℚ) ≤ s'.actualTime →
        s'.totalArticles = s.totalArticles)
      ((runDay (fun _ => 1000) (mkInit [400] 0)).2) :=
  final_time_is_last_event_no_articles_past_horizon 500 (fun _ => 1000) [400, 200] [400] [] 0
    (by decide) (fun j => by norm_num)

/-- C10 (counterexample): with horizon 500, a single arrival at 400 and a
service draw of 1000, the last processed event is the FINISH at 1400 >
500, so the final `actual_time` exceeds the horizon — but the article
counter stays at the value 2 it already had at time 400: no idle-time
articles accrue past the horizon, contrary to the claim that accrual
continues until the last FINISH. -/
theorem articles_do_not_accrue_past_horizon_example :
    generate_arrives 500 [400, 200] = some ([400], []) ∧
    ((runDay (fun _ => 1000) (mkInit [400] 0)).2.map
        (fun s => (s.actualTime, s.totalArticles))) = [(0, 0), (400, 2), (1400, 2)] ∧
    ((500 : ℚ) < 1400) := by
  refine ⟨by decide, ?_, by norm_num⟩
  norm_num [runDay, runDayF, stepDay, pqExtract, mkInit, dayFuel, histAdd]
